import Mathlib

/-
Shallow embedding of src/Modules/EC ElGamal/elgamal.c.

The external relic library supplies the elliptic-curve group G1.  The spec
treats it as a capability interface: a generator P of prime order n, scalar
multiplication, point addition/subtraction, and equality.  We embed the group
concretely as the additive group `ZMod N` (the whole curve group of order N,
with cofactor N / n), a distinguished element `P : ZMod N` playing the
generator of the order-n subgroup, and `t • P` for scalar multiplication
`ec_mul`.  Scalars (relic `bn_t` values, which are arbitrary-precision and
non-negative in every call here) are embedded as `ℕ`.

Sources of randomness (`bn_rand_mod`, `bn_rand`) are made explicit parameters:
a call that samples a scalar takes the sampled value as an argument, and the
contract of the sampler is a predicate on that argument.

The relic `RLC_TRY / RLC_CATCH_ANY / RLC_FINALLY` protocol: any underlying
group-arithmetic or allocation step may throw; `RLC_CATCH_ANY` catches every
throw and sets `result = RLC_ERR`.  We embed this with one Boolean fault flag
per fallible primitive call, in source order; the catch branch of a function runs
exactly when some flag is set.  Outputs written through pointers are
meaningful to the caller only on the `RLC_OK` path, so a faulting run is
embedded as `none`.
-/

namespace ElGamal

/-- Embedding of the relic status codes RLC_OK and RLC_ERR. -/
inductive Status where
  | ok : Status
  | err : Status
deriving DecidableEq, Repr

/-- One fault flag per fallible primitive call inside `elgamal_keygen`
(`ec_new P`, `bn_new n`, `ec_curve_get_gen`, `ec_curve_get_ord`,
`bn_rand_mod`, `ec_mul`), in source order. -/
structure KeygenFaults where
  newP : Bool
  newN : Bool
  getGen : Bool
  getOrd : Bool
  rand : Bool
  mul : Bool
deriving DecidableEq, Repr

/-- Some primitive call inside `elgamal_keygen` faulted, so the
RLC_CATCH_ANY branch runs. -/
def KeygenFaults.any (f : KeygenFaults) : Bool :=
  f.newP || f.newN || f.getGen || f.getOrd || f.rand || f.mul

/-- The fault-free run of `elgamal_keygen`. -/
def KeygenFaults.noFault : KeygenFaults :=
  ⟨false, false, false, false, false, false⟩

/-- One fault flag per fallible primitive call inside `elgamal_encrypt`
(`bn_new k`, `ec_new P`, `ec_new h`, `ec_new M`, `bn_rand`,
`ec_curve_get_gen`, `ec_mul M`, `ec_mul M1`, `ec_mul h`, `ec_add M2`),
in source order. -/
structure EncryptFaults where
  newK : Bool
  newP : Bool
  newH : Bool
  newM : Bool
  rand : Bool
  getGen : Bool
  mulM : Bool
  mulM1 : Bool
  mulH : Bool
  add : Bool
deriving DecidableEq, Repr

/-- Some primitive call inside `elgamal_encrypt` faulted. -/
def EncryptFaults.any (f : EncryptFaults) : Bool :=
  f.newK || f.newP || f.newH || f.newM || f.rand || f.getGen ||
    f.mulM || f.mulM1 || f.mulH || f.add

/-- The fault-free run of `elgamal_encrypt`. -/
def EncryptFaults.noFault : EncryptFaults :=
  ⟨false, false, false, false, false, false, false, false, false, false⟩

/-- One fault flag per fallible primitive call inside `elgamal_decrypt`
(`ec_new h`, `ec_new M`, `ec_new P`, `bn_new ord`, `ec_curve_get_gen`,
`ec_curve_get_ord`, the two fixed `ec_mul`/`ec_sub` steps, and the group
operations inside the search loop), in source order. -/
structure DecryptFaults where
  newH : Bool
  newM : Bool
  newP : Bool
  newOrd : Bool
  getGen : Bool
  getOrd : Bool
  mulH : Bool
  sub : Bool
  loop : Bool
deriving DecidableEq, Repr

/-- Some primitive call inside `elgamal_decrypt` faulted. -/
def DecryptFaults.any (f : DecryptFaults) : Bool :=
  f.newH || f.newM || f.newP || f.newOrd || f.getGen || f.getOrd ||
    f.mulH || f.sub || f.loop

/-- The fault-free run of `elgamal_decrypt`. -/
def DecryptFaults.noFault : DecryptFaults :=
  ⟨false, false, false, false, false, false, false, false, false⟩

/-- The two random-sampling primitives the module calls:
`bn_rand_mod s n` (elgamal.c line 30) and
`bn_rand k RLC_POS RLC_BN_BITS` (elgamal.c line 83). -/
inductive Sampler where
  | randMod : ℕ → Sampler
  | randBits : ℕ → Sampler
deriving DecidableEq, Repr

/-- Contract of each sampler, i.e. the set of values it can deliver.
Modelled from the external relic library: `bn_rand_mod(a, b)` retries until
it lands in [1, b-1] (documented at the call site, elgamal.c line 30, as
"a random private key in the range [1, n-1]"); `bn_rand(a, RLC_POS, bits)`
delivers a non-negative value of at most `bits` bits, not reduced modulo
anything. -/
def Sampler.admits : Sampler → ℕ → Prop
  | .randMod b, s => 1 ≤ s ∧ s < b
  | .randBits w, k => k < 2 ^ w

instance (g : Sampler) (v : ℕ) : Decidable (g.admits v) := by
  cases g <;> simp only [Sampler.admits] <;> infer_instance

/-- The sampler `elgamal_keygen` uses for the private key: `bn_rand_mod`
with the group order as bound (elgamal.c line 30). -/
def keygenSampler (n : ℕ) : Sampler := .randMod n

/-- The sampler `elgamal_encrypt` uses for the ephemeral scalar: `bn_rand`
over the full representable width RLC_BN_BITS (elgamal.c line 83). -/
def encryptSampler (bits : ℕ) : Sampler := .randBits bits

/-- Embedding of `elgamal_keygen` (elgamal.c lines 13-43).  `P` is the
generator delivered by `ec_curve_get_gen`; `s` is the value delivered by
`bn_rand_mod`.  On the fault-free path the function writes the sampled `s`
and `B = s·P` and returns RLC_OK; if any step throws, RLC_CATCH_ANY returns
RLC_ERR and no key is delivered. -/
def elgamal_keygen (N : ℕ) (P : ZMod N) (f : KeygenFaults) (s : ℕ) :
    Option (ℕ × ZMod N) :=
  if f.any then none else some (s, s • P)

/-- Embedding of `elgamal_encrypt` (elgamal.c lines 64-111).  `B` is the
public key, `m` the message scalar, `k` the value delivered by `bn_rand`,
`P` the generator.  On the fault-free path it writes
`M1 = k·P` and `M2 = m·P + k·B` and returns RLC_OK. -/
def elgamal_encrypt (N : ℕ) (P : ZMod N) (f : EncryptFaults)
    (B : ZMod N) (m k : ℕ) : Option (ZMod N × ZMod N) :=
  if f.any then none else some (k • P, m • P + k • B)

/-- The search loop of `elgamal_decrypt` (elgamal.c lines 162-169):
`for (bn_zero(*m); bn_cmp(*m, ord) != RLC_EQ; bn_add_dig(*m, *m, 1))`
with body `ec_mul(h, P, *m); if (ec_cmp(h, M) == RLC_EQ) break;`.
The counter starts at `t` and increments by 1, so the exit guard
`*m != ord` fires exactly when the counter reaches `ord`; `fuel`
is the number of values left before that (`ord - t`).  Returns the final
value of `*m`: the first `t` with `t·P = M`, or `ord` if none matches. -/
def searchGo (N : ℕ) (P M : ZMod N) : ℕ → ℕ → ℕ
  | 0, t => t
  | fuel + 1, t => if t • P = M then t else searchGo N P M fuel (t + 1)

/-- Number of executions of the body of the search loop (one `ec_mul` plus
one `ec_cmp` each) for the same run as `searchGo`. -/
def searchSteps (N : ℕ) (P M : ZMod N) : ℕ → ℕ → ℕ
  | 0, _ => 0
  | fuel + 1, t => if t • P = M then 1 else 1 + searchSteps N P M fuel (t + 1)

/-- Embedding of `elgamal_decrypt` (elgamal.c lines 131-183).  `s` is the
private key, `(M1, M2)` the ciphertext, `P` and `n` the generator and order
delivered by the curve.  The fault-free path computes `M = M2 - s·M1`, runs
the search loop from 0 with exit guard `*m = n`, and leaves the loop counter
in `*m`; the `result` variable stays RLC_OK.  A faulting run takes the
RLC_CATCH_ANY branch (`result = RLC_ERR`) and delivers no message.  The pair
returned here is (value written through `*m`, final value of `result`). -/
def elgamal_decrypt (N : ℕ) (P : ZMod N) (n : ℕ) (f : DecryptFaults)
    (s : ℕ) (M1 M2 : ZMod N) : Option ℕ × Status :=
  if f.any then (none, Status.err)
  else (some (searchGo N P (M2 - s • M1) n 0), Status.ok)

/-- The value `elgamal_decrypt` returns to its caller.  The C function
(elgamal.c lines 131-183) declares `int result`, assigns it in both the try
and catch branches, but ends without any `return` statement: control falls
off the end of a non-void function, so no defined status value reaches the
caller.  We embed the returned value as `none`. -/
def elgamal_decrypt_returned : Option Status := none

/-- Number of executions of the search-loop body in a fault-free run of
`elgamal_decrypt` on private key `s` and ciphertext `(M1, M2)`. -/
def decryptIters (N : ℕ) (P : ZMod N) (n : ℕ) (s : ℕ) (M1 M2 : ZMod N) : ℕ :=
  searchSteps N P (M2 - s • M1) n 0

/-- If no counter value reached within the given fuel matches, the search
loop runs out of fuel and leaves the counter at `t + fuel`. -/
theorem searchGo_of_no_match (N : ℕ) (P M : ZMod N) :
    ∀ fuel t, (∀ u, u < fuel → ¬((t + u) • P = M)) →
      searchGo N P M fuel t = t + fuel := by
  intro fuel
  induction fuel with
  | zero => intro t _; rfl
  | succ fuel ih =>
    intro t h
    have h0 : ¬(t • P = M) := by
      have := h 0 (Nat.succ_pos fuel)
      rwa [Nat.add_zero] at this
    have hrest : ∀ u, u < fuel → ¬((t + 1 + u) • P = M) := by
      intro u hu
      have := h (u + 1) (Nat.succ_lt_succ hu)
      have heq : t + (u + 1) = t + 1 + u := by omega
      rw [heq] at this
      exact this
    rw [searchGo, if_neg h0, ih (t + 1) hrest]
    omega

/-- If `t + u0` is the first counter value at or after `t` whose multiple of
`P` equals `M`, and it lies within the fuel, the search loop stops there and
leaves the counter at `t + u0`. -/
theorem searchGo_of_first_match (N : ℕ) (P M : ZMod N) :
    ∀ fuel t u0, u0 < fuel → (t + u0) • P = M →
      (∀ v, v < u0 → ¬((t + v) • P = M)) →
      searchGo N P M fuel t = t + u0 := by
  intro fuel
  induction fuel with
  | zero => intro t u0 h0; omega
  | succ fuel ih =>
    intro t u0 hu0 hmatch hmin
    by_cases h0 : t • P = M
    · have hz : u0 = 0 := by
        by_contra hne
        have hlt : 0 < u0 := Nat.pos_of_ne_zero hne
        have := hmin 0 hlt
        rw [Nat.add_zero] at this
        exact this h0
      rw [searchGo, if_pos h0, hz]
      omega
    · have hu0pos : 0 < u0 := by
        by_contra hc
        have hz : u0 = 0 := by omega
        rw [hz, Nat.add_zero] at hmatch
        exact h0 hmatch
      have hstep : searchGo N P M fuel (t + 1) = (t + 1) + (u0 - 1) := by
        apply ih (t + 1) (u0 - 1) (by omega)
        · have heq : t + 1 + (u0 - 1) = t + u0 := by omega
          rw [heq]; exact hmatch
        · intro v hv
          have heq : t + 1 + v = t + (v + 1) := by omega
          rw [heq]
          exact hmin (v + 1) (by omega)
      rw [searchGo, if_neg h0, hstep]
      omega

/-- The loop body never runs more often than the fuel allows. -/
theorem searchSteps_le_fuel (N : ℕ) (P M : ZMod N) :
    ∀ fuel t, searchSteps N P M fuel t ≤ fuel := by
  intro fuel
  induction fuel with
  | zero => intro t; exact Nat.le_refl 0
  | succ fuel ih =>
    intro t
    rw [searchSteps]
    by_cases h : t • P = M
    · rw [if_pos h]; omega
    · rw [if_neg h]
      have := ih (t + 1)
      omega

/-- Natural scalar multiples of 1 in `ZMod N` are the natural-number casts. -/
theorem smul_one_zmod (N t : ℕ) : t • (1 : ZMod N) = (t : ZMod N) := by
  rw [nsmul_eq_mul, mul_one]

/-- Below `N`, multiples of the generator `1 : ZMod N` are distinct: the
generator has full order `N`. -/
theorem zmod_one_inj (N a b : ℕ) (ha : a < N) (hb : b < N)
    (h : a • (1 : ZMod N) = b • (1 : ZMod N)) : a = b := by
  rw [smul_one_zmod, smul_one_zmod] at h
  have := congrArg ZMod.val h
  rwa [ZMod.val_cast_of_lt ha, ZMod.val_cast_of_lt hb] at this

/-- A multiple of the generator `1 : ZMod N` vanishes exactly on multiples
of the order `N`. -/
theorem zmod_one_ord (N t : ℕ) : t • (1 : ZMod N) = 0 ↔ N ∣ t := by
  rw [smul_one_zmod]
  exact ZMod.natCast_zmod_eq_zero_iff_dvd t N

/-- A run of `elgamal_keygen` in which no primitive call faults delivers the
sampled scalar and its multiple of the generator. -/
theorem elgamal_keygen_ok (N : ℕ) (P : ZMod N) (f : KeygenFaults) (s : ℕ)
    (hf : f.any = false) : elgamal_keygen N P f s = some (s, s • P) := by
  have hc : ¬(f.any = true) := by rw [hf]; exact Bool.false_ne_true
  unfold elgamal_keygen
  rw [if_neg hc]

/-- A run of `elgamal_keygen` in which some primitive call faults delivers
nothing. -/
theorem elgamal_keygen_err (N : ℕ) (P : ZMod N) (f : KeygenFaults) (s : ℕ)
    (hf : f.any = true) : elgamal_keygen N P f s = none := by
  unfold elgamal_keygen
  rw [if_pos hf]

/-- A run of `elgamal_encrypt` in which no primitive call faults delivers
the pair of points computed from the sampled ephemeral scalar. -/
theorem elgamal_encrypt_ok (N : ℕ) (P : ZMod N) (f : EncryptFaults)
    (B : ZMod N) (m k : ℕ) (hf : f.any = false) :
    elgamal_encrypt N P f B m k = some (k • P, m • P + k • B) := by
  have hc : ¬(f.any = true) := by rw [hf]; exact Bool.false_ne_true
  unfold elgamal_encrypt
  rw [if_neg hc]

/-- A run of `elgamal_encrypt` in which some primitive call faults delivers
nothing. -/
theorem elgamal_encrypt_err (N : ℕ) (P : ZMod N) (f : EncryptFaults)
    (B : ZMod N) (m k : ℕ) (hf : f.any = true) :
    elgamal_encrypt N P f B m k = none := by
  unfold elgamal_encrypt
  rw [if_pos hf]

/-- A run of `elgamal_decrypt` in which no primitive call faults writes the
final search counter through the output pointer and keeps RLC_OK in
`result`. -/
theorem elgamal_decrypt_ok (N : ℕ) (P : ZMod N) (n : ℕ) (f : DecryptFaults)
    (s : ℕ) (M1 M2 : ZMod N) (hf : f.any = false) :
    elgamal_decrypt N P n f s M1 M2 =
      (some (searchGo N P (M2 - s • M1) n 0), Status.ok) := by
  have hc : ¬(f.any = true) := by rw [hf]; exact Bool.false_ne_true
  unfold elgamal_decrypt
  rw [if_neg hc]

/-- A run of `elgamal_decrypt` in which some primitive call faults sets
`result` to RLC_ERR and delivers no message. -/
theorem elgamal_decrypt_err (N : ℕ) (P : ZMod N) (n : ℕ) (f : DecryptFaults)
    (s : ℕ) (M1 M2 : ZMod N) (hf : f.any = true) :
    elgamal_decrypt N P n f s M1 M2 = (none, Status.err) := by
  unfold elgamal_decrypt
  rw [if_pos hf]

/-- C1: for every key pair (s, B) with B = s·P as produced by keygen and
every message m in [0, 1000) with 1000 ≤ n, a fault-free decryption of a
fault-free encryption of m under B recovers exactly m, for every choice of
the ephemeral scalar k.  The generator hypothesis states that multiples of
P below the order n are pairwise distinct. -/
theorem C1_decrypt_of_encrypt (N n : ℕ) (P B M1 M2 : ZMod N)
    (s k m : ℕ) (fe : EncryptFaults) (fd : DecryptFaults)
    (hinj : ∀ a b : ℕ, a < n → b < n → a • P = b • P → a = b)
    (hB : B = s • P) (hn : 1000 ≤ n) (hm : m < 1000)
    (henc : elgamal_encrypt N P fe B m k = some (M1, M2))
    (hfd : fd.any = false) :
    elgamal_decrypt N P n fd s M1 M2 = (some m, Status.ok) := by
  cases hfe : fe.any with
  | true =>
    rw [elgamal_encrypt_err N P fe B m k hfe] at henc
    exact Option.noConfusion henc
  | false =>
    rw [elgamal_encrypt_ok N P fe B m k hfe] at henc
    have hp := Option.some.inj henc
    have hM1 : k • P = M1 := congrArg Prod.fst hp
    have hM2 : m • P + k • B = M2 := congrArg Prod.snd hp
    have hmask : M2 - s • M1 = m • P := by
      rw [← hM1, ← hM2, hB, smul_smul, smul_smul, Nat.mul_comm s k,
        add_sub_cancel_right]
    have hsg : searchGo N P (M2 - s • M1) n 0 = m := by
      rw [hmask]
      have hfind := searchGo_of_first_match N P (m • P) n 0 m
        (lt_of_lt_of_le hm hn)
        (by rw [Nat.zero_add])
        (by
          intro v hv hveq
          rw [Nat.zero_add] at hveq
          exact Nat.ne_of_lt hv (hinj v m (by omega) (by omega) hveq))
      rwa [Nat.zero_add] at hfind
    rw [elgamal_decrypt_ok N P n fd s M1 M2 hfd, hsg]

/-- Witness for C1: toy group ZMod 1009 with generator 1 of order 1009,
private key 5, public key 5, message 3, ephemeral scalar 7. -/
theorem C1_decrypt_of_encrypt_witness :
    (∀ a b : ℕ, a < 1009 → b < 1009 →
      a • (1 : ZMod 1009) = b • (1 : ZMod 1009) → a = b) ∧
    (5 : ZMod 1009) = (5 : ℕ) • (1 : ZMod 1009) ∧
    1000 ≤ 1009 ∧ 3 < 1000 ∧
    elgamal_encrypt 1009 1 EncryptFaults.noFault 5 3 7 = some (7, 38) ∧
    DecryptFaults.noFault.any = false ∧
    elgamal_decrypt 1009 1 1009 DecryptFaults.noFault 5 7 38 =
      (some 3, Status.ok) :=
  ⟨fun a b => zmod_one_inj 1009 a b, by decide, by decide, by decide,
    by decide, rfl,
    C1_decrypt_of_encrypt 1009 1009 1 5 7 38 5 7 3
      EncryptFaults.noFault DecryptFaults.noFault
      (fun a b => zmod_one_inj 1009 a b) (by decide) (by decide) (by decide)
      (by decide) rfl⟩

/-- C2: every successful run of keygen returns a public key equal to the
private key times the generator, and a successful run means no primitive
faulted; contrapositively, a faulting run never delivers a (partial) key. -/
theorem C2_keygen_public_key (N : ℕ) (P : ZMod N) (f : KeygenFaults)
    (s0 s : ℕ) (B : ZMod N)
    (h : elgamal_keygen N P f s0 = some (s, B)) :
    B = s • P ∧ f.any = false := by
  cases hfa : f.any with
  | true =>
    rw [elgamal_keygen_err N P f s0 hfa] at h
    exact Option.noConfusion h
  | false =>
    rw [elgamal_keygen_ok N P f s0 hfa] at h
    have hp := Option.some.inj h
    have hs : s0 = s := congrArg Prod.fst hp
    have hB : s0 • P = B := congrArg Prod.snd hp
    subst hs
    exact ⟨hB.symm, rfl⟩

/-- Witness for C2: toy group ZMod 10, generator 2, sampled scalar 3. -/
theorem C2_keygen_public_key_witness :
    elgamal_keygen 10 2 KeygenFaults.noFault 3 = some (3, (6 : ZMod 10)) ∧
    ((6 : ZMod 10) = (3 : ℕ) • (2 : ZMod 10) ∧
      KeygenFaults.noFault.any = false) :=
  ⟨by decide, C2_keygen_public_key 10 2 KeygenFaults.noFault 3 3 6 (by decide)⟩

/-- C3: every successful run of encrypt on public key B and message m with
sampled ephemeral scalar k returns exactly the pair (k·P, m·P + k·B). -/
theorem C3_encrypt_shape (N : ℕ) (P B M1 M2 : ZMod N)
    (f : EncryptFaults) (m k : ℕ)
    (h : elgamal_encrypt N P f B m k = some (M1, M2)) :
    M1 = k • P ∧ M2 = m • P + k • B := by
  cases hfa : f.any with
  | true =>
    rw [elgamal_encrypt_err N P f B m k hfa] at h
    exact Option.noConfusion h
  | false =>
    rw [elgamal_encrypt_ok N P f B m k hfa] at h
    have hp := Option.some.inj h
    exact ⟨(congrArg Prod.fst hp).symm, (congrArg Prod.snd hp).symm⟩

/-- Witness for C3: toy group ZMod 10, generator 2, public key 4,
message 1, ephemeral scalar 3. -/
theorem C3_encrypt_shape_witness :
    elgamal_encrypt 10 2 EncryptFaults.noFault 4 1 3 = some (6, 4) ∧
    ((6 : ZMod 10) = (3 : ℕ) • (2 : ZMod 10) ∧
      (4 : ZMod 10) = (1 : ℕ) • (2 : ZMod 10) + (3 : ℕ) • (4 : ZMod 10)) :=
  ⟨by decide, C3_encrypt_shape 10 2 4 6 4 EncryptFaults.noFault 1 3 (by decide)⟩

/-- C4: keygen samples its private key with `bn_rand_mod` bounded by the
group order n, while encrypt samples its ephemeral scalar with `bn_rand`
over the full representable width: the two samplers differ, every keygen
sample is below n, and (whenever n fits the width) encrypt admits samples
that are not reduced below n. -/
theorem C4_sampler_asymmetry (n bits : ℕ) (hbits : n < 2 ^ bits) :
    keygenSampler n ≠ encryptSampler bits ∧
    (∀ s, (keygenSampler n).admits s → s < n) ∧
    ∃ k, (encryptSampler bits).admits k ∧ n ≤ k :=
  ⟨fun hcon => Sampler.noConfusion hcon,
    fun _ hs => hs.2,
    ⟨n, hbits, Nat.le_refl n⟩⟩

/-- Witness for C4 at order 1009 and width 16. -/
theorem C4_sampler_asymmetry_witness :
    1009 < 2 ^ 16 ∧
    (keygenSampler 1009 ≠ encryptSampler 16 ∧
      (∀ s, (keygenSampler 1009).admits s → s < 1009) ∧
      ∃ k, (encryptSampler 16).admits k ∧ 1009 ≤ k) :=
  ⟨by decide, C4_sampler_asymmetry 1009 16 (by decide)⟩

/-- C5: a fault-free run of decrypt computes M = M2 - s·M1 and searches
t = 0, 1, 2, ... below n; whenever some t in [0, n) satisfies t·P = M, the
message written out is the least such t. -/
theorem C5_decrypt_least_match (N n : ℕ) (P M1 M2 : ZMod N) (s t0 : ℕ)
    (f : DecryptFaults) (hf : f.any = false)
    (ht0 : t0 < n) (hmt : t0 • P = M2 - s • M1) :
    ∃ r, elgamal_decrypt N P n f s M1 M2 = (some r, Status.ok) ∧
      r ≤ t0 ∧ r • P = M2 - s • M1 ∧
      ∀ u, u < r → ¬(u • P = M2 - s • M1) := by
  have hex : ∃ u, u • P = M2 - s • M1 := ⟨t0, hmt⟩
  have hr := Nat.find_spec hex
  have hrle : Nat.find hex ≤ t0 := Nat.find_min' hex hmt
  refine ⟨Nat.find hex, ?_, hrle, hr, fun u hu => Nat.find_min hex hu⟩
  rw [elgamal_decrypt_ok N P n f s M1 M2 hf]
  have hsg := searchGo_of_first_match N P (M2 - s • M1) n 0 (Nat.find hex)
    (by omega)
    (by rw [Nat.zero_add]; exact hr)
    (by
      intro v hv
      rw [Nat.zero_add]
      exact Nat.find_min hex hv)
  rw [Nat.zero_add] at hsg
  rw [hsg]

/-- Witness for C5: toy group ZMod 10, generator 2 of order 5, private key
1, ciphertext (2, 6): the masked point is 4 = 2·P, first matched at t = 2. -/
theorem C5_decrypt_least_match_witness :
    DecryptFaults.noFault.any = false ∧ 2 < 5 ∧
    (2 : ℕ) • (2 : ZMod 10) = 6 - (1 : ℕ) • (2 : ZMod 10) ∧
    ∃ r, elgamal_decrypt 10 2 5 DecryptFaults.noFault 1 2 6 =
        (some r, Status.ok) ∧
      r ≤ 2 ∧ r • (2 : ZMod 10) = 6 - (1 : ℕ) • (2 : ZMod 10) ∧
      ∀ u, u < r → ¬(u • (2 : ZMod 10) = 6 - (1 : ℕ) • (2 : ZMod 10)) :=
  ⟨rfl, by decide, by decide,
    C5_decrypt_least_match 10 5 2 2 6 1 2 DecryptFaults.noFault rfl
      (by decide) (by decide)⟩

/-- C6: when the search exhausts the whole range [0, n) without a match the
source does not signal any MessageNotFound failure: at a concrete such
input (group ZMod 10, generator 2 of order 5, private key 3, ciphertext
(0, 1), masked point 1 outside the subgroup generated by 2) decrypt
terminates with the out-of-domain value n = 5 written through the output
pointer and the result variable still RLC_OK. -/
theorem C6_exhausted_search_signals_nothing :
    elgamal_decrypt 10 2 5 DecryptFaults.noFault 3 0 1 =
      (some 5, Status.ok) ∧
    (∀ t, t < 5 → ¬(t • (2 : ZMod 10) = 1 - (3 : ℕ) • (0 : ZMod 10))) :=
  ⟨by decide, by decide⟩

/-- C7: in all three operations the catch-all protocol makes the internal
result RLC_ERR exactly when some primitive faulted; keygen and encrypt
return that result to the caller, but decrypt ends without a return
statement, so the value reaching its caller is undefined (embedded as
`none`) rather than the computed status. -/
theorem C7_error_result (N n : ℕ) (P B M1 M2 : ZMod N)
    (fk : KeygenFaults) (fe : EncryptFaults) (fd : DecryptFaults)
    (s0 m k s : ℕ) :
    (elgamal_keygen N P fk s0 = none ↔ fk.any = true) ∧
    (elgamal_encrypt N P fe B m k = none ↔ fe.any = true) ∧
    ((elgamal_decrypt N P n fd s M1 M2).2 = Status.err ↔ fd.any = true) ∧
    elgamal_decrypt_returned = none := by
  refine ⟨⟨fun h => ?_, fun h => elgamal_keygen_err N P fk s0 h⟩,
    ⟨fun h => ?_, fun h => elgamal_encrypt_err N P fe B m k h⟩,
    ⟨fun h => ?_, fun h => by rw [elgamal_decrypt_err N P n fd s M1 M2 h]⟩,
    rfl⟩
  · cases hfa : fk.any with
    | true => rfl
    | false =>
      rw [elgamal_keygen_ok N P fk s0 hfa] at h
      exact Option.noConfusion h
  · cases hfa : fe.any with
    | true => rfl
    | false =>
      rw [elgamal_encrypt_ok N P fe B m k hfa] at h
      exact Option.noConfusion h
  · cases hfa : fd.any with
    | true => rfl
    | false =>
      rw [elgamal_decrypt_ok N P n fd s M1 M2 hfa] at h
      exact Status.noConfusion h

/-- C8: for every private key and every ciphertext, matched or not, the
decrypt search loop executes its body at most n times, n the group order:
decryption always terminates. -/
theorem C8_decrypt_iterations_bounded (N n s : ℕ) (P M1 M2 : ZMod N) :
    decryptIters N P n s M1 M2 ≤ n :=
  searchSteps_le_fuel N P (M2 - s • M1) n 0

/-- C9: a successful keygen run, with the private key delivered by
`bn_rand_mod` (range [1, n-1]) and the generator of exact order n, returns
a nonzero private key and a public key different from the group identity. -/
theorem C9_keygen_nonzero (N n : ℕ) (P : ZMod N) (f : KeygenFaults)
    (s0 s : ℕ) (B : ZMod N)
    (hord : ∀ t : ℕ, t • P = 0 ↔ n ∣ t)
    (hs0 : (keygenSampler n).admits s0)
    (h : elgamal_keygen N P f s0 = some (s, B)) :
    s ≠ 0 ∧ B ≠ 0 := by
  obtain ⟨h1, h2⟩ := hs0
  cases hfa : f.any with
  | true =>
    rw [elgamal_keygen_err N P f s0 hfa] at h
    exact Option.noConfusion h
  | false =>
    rw [elgamal_keygen_ok N P f s0 hfa] at h
    have hp := Option.some.inj h
    have hs : s0 = s := congrArg Prod.fst hp
    have hB : s0 • P = B := congrArg Prod.snd hp
    subst hs
    refine ⟨by omega, fun hB0 => ?_⟩
    rw [← hB] at hB0
    have hdvd := (hord s0).mp hB0
    have := Nat.le_of_dvd (by omega) hdvd
    omega

/-- Witness for C9: group ZMod 1009 with generator 1 of exact order 1009,
sampled scalar 5. -/
theorem C9_keygen_nonzero_witness :
    (∀ t : ℕ, t • (1 : ZMod 1009) = 0 ↔ 1009 ∣ t) ∧
    (keygenSampler 1009).admits 5 ∧
    elgamal_keygen 1009 1 KeygenFaults.noFault 5 =
      some (5, (5 : ZMod 1009)) ∧
    ((5 : ℕ) ≠ 0 ∧ (5 : ZMod 1009) ≠ 0) :=
  ⟨fun t => zmod_one_ord 1009 t, by decide, by decide,
    C9_keygen_nonzero 1009 1009 1 KeygenFaults.noFault 5 5 5
      (fun t => zmod_one_ord 1009 t) (by decide) (by decide)⟩

/-- C10: when no t in [0, n) matches the masked point, a fault-free decrypt
run leaves the loop with the counter equal to the group order n written
through the output pointer and the result variable still RLC_OK: no error
branch is taken and the output is not left unset. -/
theorem C10_exhausted_search_output (N n : ℕ) (P M1 M2 : ZMod N) (s : ℕ)
    (f : DecryptFaults) (hf : f.any = false)
    (hnone : ∀ t, t < n → ¬(t • P = M2 - s • M1)) :
    elgamal_decrypt N P n f s M1 M2 = (some n, Status.ok) := by
  rw [elgamal_decrypt_ok N P n f s M1 M2 hf]
  have hsg := searchGo_of_no_match N P (M2 - s • M1) n 0
    (by
      intro u hu
      rw [Nat.zero_add]
      exact hnone u hu)
  rw [Nat.zero_add] at hsg
  rw [hsg]

/-- Witness for C10: toy group ZMod 10, generator 2 of order 5, private key
1, ciphertext (4, 7): the masked point 3 is outside the subgroup generated
by 2, so the counter ends at 5. -/
theorem C10_exhausted_search_output_witness :
    DecryptFaults.noFault.any = false ∧
    (∀ t, t < 5 → ¬(t • (2 : ZMod 10) = 7 - (1 : ℕ) • (4 : ZMod 10))) ∧
    elgamal_decrypt 10 2 5 DecryptFaults.noFault 1 4 7 =
      (some 5, Status.ok) :=
  ⟨rfl, by decide,
    C10_exhausted_search_output 10 5 2 4 7 1 DecryptFaults.noFault rfl
      (by decide)⟩

end ElGamal
